import Mathlib

/-!
# Verification of the RouteLink logistic delivery and tracking system

This file gives a shallow embedding, in Lean 4, of the core of the
RouteLink delivery-tracking program (the flat script `Main_CODE.py` and its
class-based near-duplicate `MAIN CODE/DSA_Classes.py`), together with
theorems settling the specification claims about it.

The embedding follows the Python source:
* delivery records are structures of five string fields;
* the store, the dispatch queue and the completion log form a
  `SystemState`; the queue holds positions into the store, modelling the
  fact that in Python both containers alias the very same record objects;
* the route graph is an association list, breadth-first search is written
  with an explicit fuel parameter (the Python `while` loop), and a theorem
  shows a computable fuel bound always suffices;
* the quicksort and group-sort routines are translated directly, with key
  lookup returning `Option String` to model Python's `dict.get` /
  `getattr` (a missing key yields `None`).
-/

namespace RouteLink

/-- A delivery record: `{id, sender, receiver, destination, status}` in the
source.  The status is kept as a string, exactly as in Python. -/
structure DeliveryRec where
  id : String
  sender : String
  receiver : String
  destination : String
  status : String
deriving DecidableEq, Repr, Inhabited

/-- A completed-delivery record, as built in `update_status` /
`DeliveryManager.complete_delivery`. -/
structure CompletionRec where
  id : String
  sender : String
  receiver : String
  origin : String
  destination : String
  route : String
  time : Nat
  status : String
deriving DecidableEq, Repr, Inhabited

/-- The whole mutable state of the program: the `deliveries` dynamic array,
the `schedule_queue` (as positions into `deliveries`, since in Python the
queue holds references to the very same record objects), and the
`completed_deliveries` log. -/
structure SystemState where
  deliveries : List DeliveryRec
  queue : List Nat
  completed : List CompletionRec
deriving DecidableEq, Repr, Inhabited

/-- The fixed `routes` adjacency dictionary of the source. -/
def routes : List (String × List String) :=
  [("Warehouse", ["Area A", "Area B"]),
   ("Area A", ["Area C", "Area D"]),
   ("Area B", ["Area E", "Area F"]),
   ("Area C", []),
   ("Area D", []),
   ("Area E", []),
   ("Area F", [])]

/-- The fixed `travel_times` dictionary of the source. -/
def travel_times : List ((String × String) × Nat) :=
  [(("Warehouse", "Area A"), 3),
   (("Warehouse", "Area B"), 4),
   (("Area A", "Area C"), 3),
   (("Area A", "Area D"), 3),
   (("Area B", "Area E"), 4),
   (("Area B", "Area F"), 4)]

/-- `status_options` of the source: maps the menu code to a status name. -/
def statusOfChoice (c : String) : Option String :=
  if c = "1" then some "Pending"
  else if c = "2" then some "Dispatched"
  else if c = "3" then some "Out for Delivery"
  else if c = "4" then some "Delivered"
  else none

/-- One run of the BFS `while` loop of `find_route`, with an explicit fuel
parameter standing for the number of loop iterations still allowed.  The
queue holds `(current, path)` pairs; `visited` is the visited set.
`none` means the fuel ran out (theorem `bfsFuel_isSome_of_lt` shows this
never happens for the fuel bound used by `find_route`). -/
def bfsFuel (g : List (String × List String)) (dest : String) :
    Nat → List (String × List String) → List String → Option (List String)
  | 0, _, _ => none
  | _ + 1, [], _ => some []
  | fuel + 1, (current, path) :: rest, visited =>
    if current = dest then some path
    else if current ∈ visited then bfsFuel g dest fuel rest visited
    else
      bfsFuel g dest fuel
        (rest ++ (((g.lookup current).getD []).filter
            (fun c => decide (c ∉ current :: visited))).map
          (fun c => (c, path ++ [c])))
        (current :: visited)

/-- Fuel sufficient for the whole search: one step per possible dequeue
(`1` initial entry plus at most `Σ (out-degree + 1)` enqueues) plus the
final empty-queue step. -/
def fuelBound (g : List (String × List String)) : Nat :=
  2 + (g.map (fun p => p.2.length + 1)).sum

/-- `find_route` of the source: BFS from `"Warehouse"` to `destination`.
The Python loop is run with the sufficient fuel `fuelBound g`; the `getD`
covers the fuel-exhaustion case, which theorem `find_route_terminates`
shows is unreachable. -/
def find_route (g : List (String × List String)) (destination : String) :
    List String :=
  (bfsFuel g destination (fuelBound g) [("Warehouse", ["Warehouse"])] []).getD []

/-- `calculate_travel_time` of the source: sum of `travel_times.get(edge, 0)`
over consecutive pairs of the route. -/
def calculate_travel_time : List String → Nat
  | a :: b :: rest => (travel_times.lookup (a, b)).getD 0 + calculate_travel_time (b :: rest)
  | _ => 0

/-! ## Termination of the BFS loop -/

/-- Potential charged to the unvisited part of the graph: each unvisited
adjacency entry can still cause one dequeue of its node plus one enqueue
per child. -/
def phiVisited (g : List (String × List String)) (visited : List String) : Nat :=
  ((g.filter (fun p => decide (p.1 ∉ visited))).map (fun p => p.2.length + 1)).sum

/-- Total potential of a BFS configuration: pending dequeues plus the
potential of the unvisited entries. -/
def phi (g : List (String × List String)) (visited : List String)
    (queue : List (String × List String)) : Nat :=
  queue.length + phiVisited g visited

/-! ## Sorting (`quick_sort` of the source) -/

/-- The comparison `x.get(key) < pivot_val` of the partition
comprehensions.  In Python, comparing `None` with a string raises
`TypeError`, so that case is unreachable on the inputs any claim speaks
about; it is modelled as `false` here. -/
def kLt : Option String → String → Bool
  | some v, pv => decide (v < pv)
  | none, _ => false

/-- The comparison `x.get(key) == pivot_val` of the partition
comprehensions (`None == str` is `False` in Python). -/
def kEq : Option String → String → Bool
  | some v, pv => decide (v = pv)
  | none, _ => false

/-- The comparison `x.get(key) > pivot_val` of the partition
comprehensions (unreachable for `None`, as for `kLt`). -/
def kGt : Option String → String → Bool
  | some v, pv => decide (pv < v)
  | none, _ => false

/-- `quick_sort(arr, key)` of the source.  `key` models the dynamic field
lookup (`x.get(key)` on dicts, `getattr` on objects): it yields `none`
when the record has no value for the key.  The first two cases are the
`len(arr) <= 1` guard; the `none` pivot case is the `pivot_val is None`
guard. -/
def quick_sort (key : α → Option String) : List α → List α
  | [] => []
  | [a] => [a]
  | p :: b :: t =>
    match hk : key p with
    | none => p :: b :: t
    | some pv =>
      quick_sort key ((p :: b :: t).filter (fun x => kLt (key x) pv))
        ++ (p :: b :: t).filter (fun x => kEq (key x) pv)
        ++ quick_sort key ((p :: b :: t).filter (fun x => kGt (key x) pv))
termination_by l => l.length
decreasing_by
  · have h1 : kLt (key p) pv = false := by
      rw [hk]
      simp [kLt, lt_self_iff_false]
    have h2 : (p :: b :: t).filter (fun x => kLt (key x) pv)
        = (b :: t).filter (fun x => kLt (key x) pv) := by
      rw [List.filter_cons, h1]
      simp
    rw [h2]
    have h3 := List.length_filter_le (fun x => kLt (key x) pv) (b :: t)
    simp only [List.length_cons] at h3 ⊢
    omega
  · have h1 : kGt (key p) pv = false := by
      rw [hk]
      simp [kGt, lt_self_iff_false]
    have h2 : (p :: b :: t).filter (fun x => kGt (key x) pv)
        = (b :: t).filter (fun x => kGt (key x) pv) := by
      rw [List.filter_cons, h1]
      simp
    rw [h2]
    have h3 := List.length_filter_le (fun x => kGt (key x) pv) (b :: t)
    simp only [List.length_cons] at h3 ⊢
    omega

/-- `a ≤ b` on optional key values; orders actual string values, and is
vacuously true when either side is missing (such comparisons are
unreachable under the all-keys-present hypotheses of the claims). -/
def kle : Option String → Option String → Bool
  | some x, some y => decide (x ≤ y)
  | _, _ => true

/-- A list is sorted for the key function when consecutive key values are
ascending. -/
def sortedByKey (key : α → Option String) (l : List α) : Prop :=
  l.Pairwise (fun a b => kle (key a) (key b) = true)

/-! ## Group sort (`group_sort` of the source) -/

/-- `status_order.get(k, 99)`: the rank a group key gets from the
enumeration of `status_options.values()`; unknown keys (including a
missing primary key) rank 99. -/
def statusRank : Option String → Nat := fun k =>
  if k = some "Pending" then 0
  else if k = some "Dispatched" then 1
  else if k = some "Out for Delivery" then 2
  else if k = some "Delivered" then 3
  else 99

/-- Comparison of group keys by status rank, the `key=lambda` of the
`sorted` call in `group_sort`. -/
def rankLe (a b : Option String) : Prop := statusRank a ≤ statusRank b

instance : DecidableRel rankLe := fun _ _ => Nat.decLe _ _

instance : IsTotal (Option String) rankLe :=
  ⟨fun a b => Nat.le_total (statusRank a) (statusRank b)⟩

instance : IsTrans (Option String) rankLe :=
  ⟨fun _ _ _ h1 h2 => Nat.le_trans h1 h2⟩

/-- One step of the dict-building loop of `group_sort`: append `x` to the
group of key `k`, creating the group at the end if absent (Python dicts
preserve insertion order). -/
def insertGroup (gs : List (Option String × List α)) (k : Option String) (x : α) :
    List (Option String × List α) :=
  match gs with
  | [] => [(k, [x])]
  | (k₀, xs) :: rest =>
    if k₀ = k then (k₀, xs ++ [x]) :: rest else (k₀, xs) :: insertGroup rest k x

/-- The `groups` dict of `group_sort` after the grouping loop. -/
def buildGroups (pk : α → Option String) (arr : List α) :
    List (Option String × List α) :=
  arr.foldl (fun gs x => insertGroup gs (pk x) x) []

/-- `groups[key]` lookup (with `[]` for an absent key, which never occurs
in the source since only present keys are looked up). -/
def lookupGroup (gs : List (Option String × List α)) (k : Option String) :
    List α :=
  match gs.find? (fun p => p.1 == k) with
  | some p => p.2
  | none => []

/-- `group_sort(arr, primary_key, secondary_key)` of the source: group by
the primary key, order the group keys by status rank (Python's stable
`sorted` is modelled by the stable `List.insertionSort`), quick-sort each
group by the secondary key and concatenate. -/
def group_sort (arr : List α) (pk sk : α → Option String) : List α :=
  let groups := buildGroups pk arr
  let sortedKeys := List.insertionSort rankLe (groups.map Prod.fst)
  sortedKeys.foldl (fun acc k => acc ++ quick_sort sk (lookupGroup groups k)) []

/-! ## Store, queue and lifecycle operations -/

/-- `id_exists` / the `any` scan of `DeliveryManager.id_exists`. -/
def id_exists (ds : List DeliveryRec) (pid : String) : Bool :=
  ds.any (fun d => d.id == pid)

/-- `get_active_delivery`: first record whose status is `Dispatched` or
`Out for Delivery`, in store order. -/
def get_active_delivery (ds : List DeliveryRec) : Option DeliveryRec :=
  ds.find? (fun d => decide (d.status = "Dispatched" ∨ d.status = "Out for Delivery"))

/-- Result of a registration attempt. -/
inductive RegisterResult where
  | ok : RegisterResult
  | duplicateId : RegisterResult
deriving DecidableEq, Repr

/-- `register_delivery` (class-based version, `UserInterface.register_delivery`):
reject a duplicate parcel id, otherwise create the record — `Dispatched`
when no active delivery exists, else `Pending` — and append it to both the
store and the schedule queue (the queue holds the new record's position,
modelling the shared reference).  The flat script `Main_CODE.py` omits the
duplicate-id check; the class-based file implements it. -/
def register_delivery (s : SystemState) (pid sender receiver destination : String) :
    SystemState × RegisterResult :=
  if id_exists s.deliveries pid then (s, .duplicateId)
  else
    let status := match get_active_delivery s.deliveries with
      | none => "Dispatched"
      | some _ => "Pending"
    let newRec : DeliveryRec :=
      { id := pid, sender := sender, receiver := receiver,
        destination := destination, status := status }
    let s2 : SystemState :=
      { deliveries := s.deliveries ++ [newRec]
        queue := s.queue ++ [s.deliveries.length]
        completed := s.completed }
    (s2, .ok)

/-- The `for d in deliveries: if d["id"] == parcel_id` scan of
`update_status` (and `DeliveryManager.find_by_id`): the first matching
record together with its position. -/
def findById : List DeliveryRec → String → Option (Nat × DeliveryRec)
  | [], _ => none
  | d :: rest, pid =>
    if d.id = pid then some (0, d)
    else (findById rest pid).map (fun p => (p.1 + 1, p.2))

/-- The completion record built on a transition into `Delivered` from an
active status: route via BFS, rendered `"N/A"` when empty, travel time `0`
when the route is empty. -/
def mkCompletion (d : DeliveryRec) : CompletionRec :=
  let r := find_route routes d.destination
  { id := d.id, sender := d.sender, receiver := d.receiver,
    origin := "Warehouse", destination := d.destination,
    route := if r.isEmpty then "N/A" else String.intercalate " -> " r,
    time := if r.isEmpty then 0 else calculate_travel_time r,
    status := "Delivered" }

/-- Does the record at position `i` of the store have status `Pending`?
(Out-of-range positions never occur in states reachable by the program.) -/
def pendingAt (ds : List DeliveryRec) (i : Nat) : Bool :=
  match ds.get? i with
  | some d => d.status == "Pending"
  | none => false

/-- Overwrite the status of the record at position `i` (the in-place
mutation `d["status"] = ...` seen through the store). -/
def setStatusAt (ds : List DeliveryRec) (i : Nat) (st : String) : List DeliveryRec :=
  match ds.get? i with
  | some d => ds.set i ({ d with status := st })
  | none => ds

/-- `dispatch_next_pending`: scan the schedule queue front to back and flip
the first `Pending` record to `Dispatched`, returning its position; `none`
when no pending record exists.  Nothing is removed from the queue. -/
def dispatch_next_pending (s : SystemState) : SystemState × Option Nat :=
  match s.queue.find? (pendingAt s.deliveries) with
  | some i => ({ s with deliveries := setStatusAt s.deliveries i "Dispatched" }, some i)
  | none => (s, none)

/-- Result of a status-update attempt, mirroring the branches of
`update_status`. -/
inductive UpdateResult where
  | noActive : UpdateResult
  | notFound : UpdateResult
  | invalidChoice : UpdateResult
  | updated : String → UpdateResult
deriving DecidableEq, Repr

/-- `update_status(parcel_id, choice)` of the source: refuse when no
non-`Delivered` record exists, look the id up (first match in store
order), validate the menu choice, set the record's status, and — exactly
on a transition into `Delivered` from `Dispatched` or `Out for Delivery` —
append a completion record and auto-dispatch the next pending delivery. -/
def update_status (s : SystemState) (pid choice : String) :
    SystemState × UpdateResult :=
  if ((s.deliveries.filter (fun d => decide (d.status ≠ "Delivered"))).isEmpty) then
    (s, .noActive)
  else
    match findById s.deliveries pid with
    | none => (s, .notFound)
    | some (i, d) =>
      match statusOfChoice choice with
      | none => (s, .invalidChoice)
      | some newStatus =>
        let s1 : SystemState :=
          { s with deliveries := s.deliveries.set i ({ d with status := newStatus }) }
        if newStatus = "Delivered" ∧ (d.status = "Dispatched" ∨ d.status = "Out for Delivery") then
          let s2 : SystemState := { s1 with completed := s1.completed ++ [mkCompletion d] }
          ((dispatch_next_pending s2).1, .updated d.status)
        else (s1, .updated d.status)

theorem phiVisited_cons_eq (p : String × List String)
    (g : List (String × List String)) (visited : List String) :
    phiVisited (p :: g) visited
      = (if p.1 ∈ visited then 0 else p.2.length + 1) + phiVisited g visited := by
  by_cases h : p.1 ∈ visited <;> simp [phiVisited, List.filter_cons, h]

theorem phiVisited_mono (g : List (String × List String)) (c : String)
    (visited : List String) : phiVisited g (c :: visited) ≤ phiVisited g visited := by
  induction g with
  | nil => simp [phiVisited]
  | cons p g ih =>
    rw [phiVisited_cons_eq, phiVisited_cons_eq]
    by_cases h1 : p.1 ∈ visited
    · have h2 : p.1 ∈ c :: visited := List.mem_cons_of_mem _ h1
      simpa [h1, h2] using ih
    · by_cases h3 : p.1 ∈ c :: visited
      · simp only [h1, h3, if_true, if_false]
        omega
      · simp only [h1, h3, if_true, if_false]
        omega

theorem lookup_cons_eq (p : String × List String) (g : List (String × List String))
    (c : String) : (p :: g).lookup c = if c = p.1 then some p.2 else g.lookup c := by
  rcases p with ⟨k, v⟩
  rw [List.lookup_cons]
  by_cases h : c = k
  · simp [h]
  · have hb : (c == k) = false := by simpa using h
    simp [hb, h]

theorem lookup_mem {g : List (String × List String)} {c : String}
    {cs : List String} (h : g.lookup c = some cs) : (c, cs) ∈ g := by
  induction g with
  | nil => simp [List.lookup] at h
  | cons p g ih =>
    rcases p with ⟨k, v⟩
    rw [lookup_cons_eq] at h
    by_cases hc : c = k
    · simp only [hc, if_true] at h
      cases h
      rw [hc]
      exact List.mem_cons_self _ _
    · simp only [hc, if_false] at h
      exact List.mem_cons_of_mem _ (ih h)

theorem phiVisited_mark {g : List (String × List String)} {c : String}
    {cs : List String} (visited : List String) (hv : c ∉ visited)
    (hl : g.lookup c = some cs) :
    phiVisited g (c :: visited) + cs.length + 1 ≤ phiVisited g visited := by
  induction g with
  | nil => simp [List.lookup] at hl
  | cons p g ih =>
    rw [lookup_cons_eq] at hl
    rw [phiVisited_cons_eq, phiVisited_cons_eq]
    by_cases hc : c = p.1
    · rw [if_pos hc] at hl
      cases hl
      have h1 : p.1 ∈ c :: visited := by rw [← hc]; exact List.mem_cons_self _ _
      have h2 : p.1 ∉ visited := by rw [← hc]; exact hv
      have hmono := phiVisited_mono g c visited
      simp only [h1, h2, if_true, if_false]
      omega
    · rw [if_neg hc] at hl
      have hiff : (p.1 ∈ c :: visited) ↔ (p.1 ∈ visited) := by
        rw [List.mem_cons]
        constructor
        · intro h
          rcases h with h | h
          · exact absurd h.symm hc
          · exact h
        · intro h; exact Or.inr h
      by_cases hp : p.1 ∈ visited
      · have hp2 : p.1 ∈ c :: visited := hiff.mpr hp
        simpa [hp, hp2] using ih hl
      · have hp2 : p.1 ∉ c :: visited := fun hm => hp (hiff.mp hm)
        have := ih hl
        simp only [hp, hp2, if_true, if_false]
        omega

theorem bfsFuel_isSome_of_lt (g : List (String × List String)) (dest : String) :
    ∀ (fuel : Nat) (queue : List (String × List String)) (visited : List String),
      phi g visited queue < fuel → (bfsFuel g dest fuel queue visited).isSome := by
  intro fuel
  induction fuel with
  | zero => intro queue visited h; exact absurd h (Nat.not_lt_zero _)
  | succ f ih =>
    intro queue visited h
    match queue with
    | [] => simp [bfsFuel]
    | (current, path) :: rest =>
      rw [bfsFuel]
      by_cases hdest : current = dest
      · simp [hdest]
      · rw [if_neg hdest]
        by_cases hvis : current ∈ visited
        · rw [if_pos hvis]
          apply ih
          simp only [phi, List.length_cons] at h ⊢
          omega
        · rw [if_neg hvis]
          apply ih
          rcases hlook : g.lookup current with _ | cs
          · have hmono := phiVisited_mono g current visited
            simp only [phi, hlook, Option.getD_none, List.filter_nil,
              List.map_nil, List.append_nil, List.length_cons] at h ⊢
            omega
          · have hmark := phiVisited_mark visited hvis hlook
            have hlen : ((cs.filter
                (fun c => decide (c ∉ current :: visited))).length ≤ cs.length) :=
              List.length_filter_le _ _
            simp only [phi, hlook, Option.getD_some, List.length_append,
              List.length_map, List.length_cons] at h ⊢
            omega

theorem bfsFuel_no_dest {g : List (String × List String)} {dest : String}
    (hg : ∀ p ∈ g, dest ∉ p.2) :
    ∀ (fuel : Nat) (queue : List (String × List String)) (visited : List String),
      (∀ e ∈ queue, e.1 ≠ dest) →
      bfsFuel g dest fuel queue visited = none
        ∨ bfsFuel g dest fuel queue visited = some [] := by
  intro fuel
  induction fuel with
  | zero => intro queue visited _; left; rfl
  | succ f ih =>
    intro queue visited hq
    match queue with
    | [] => right; rfl
    | (current, path) :: rest =>
      have hcur : current ≠ dest := hq _ (List.mem_cons_self _ _)
      rw [bfsFuel, if_neg hcur]
      by_cases hvis : current ∈ visited
      · rw [if_pos hvis]
        exact ih rest visited (fun e he => hq e (List.mem_cons_of_mem _ he))
      · rw [if_neg hvis]
        apply ih
        intro e he
        rcases List.mem_append.mp he with h1 | h1
        · exact hq e (List.mem_cons_of_mem _ h1)
        · rcases List.mem_map.mp h1 with ⟨ch, hch, rfl⟩
          have hch2 := List.mem_of_mem_filter hch
          rcases hlook : g.lookup current with _ | cs
          · rw [hlook] at hch2
            simp at hch2
          · rw [hlook] at hch2
            simp only [Option.getD_some] at hch2
            intro hEq
            exact hg _ (lookup_mem hlook) (hEq ▸ hch2)

theorem find_route_unreachable {g : List (String × List String)} {dest : String}
    (h1 : dest ≠ "Warehouse") (h2 : ∀ p ∈ g, dest ∉ p.2) :
    find_route g dest = [] := by
  unfold find_route
  have hq : ∀ e ∈ ([(("Warehouse" : String), ["Warehouse"])] :
      List (String × List String)), e.1 ≠ dest := by
    intro e he
    rcases List.mem_singleton.mp he with rfl
    exact fun hEq => h1 hEq.symm
  rcases bfsFuel_no_dest h2 (fuelBound g) _ [] hq with h | h <;> rw [h] <;> rfl

/-! ## Properties of `quick_sort` -/

theorem quick_sort_pivot_none (key : α → Option String) (p : α) (t : List α)
    (hk : key p = none) : quick_sort key (p :: t) = p :: t := by
  match t with
  | [] => rw [quick_sort]
  | b :: t2 =>
    rw [quick_sort]
    split
    · rfl
    · rename_i pv heq
      rw [hk] at heq
      cases heq

theorem quick_sort_eq_parts (key : α → Option String) (p b : α) (t : List α)
    {pv : String} (hk : key p = some pv) :
    quick_sort key (p :: b :: t)
      = quick_sort key ((p :: b :: t).filter (fun x => kLt (key x) pv))
        ++ (p :: b :: t).filter (fun x => kEq (key x) pv)
        ++ quick_sort key ((p :: b :: t).filter (fun x => kGt (key x) pv)) := by
  rw [quick_sort]
  split
  · rename_i heq
    rw [hk] at heq
    cases heq
  · rename_i pv2 heq
    rw [hk] at heq
    cases heq
    rfl

theorem kLt_self_false {pv : String} {o : Option String} (hk : o = some pv) :
    kLt o pv = false := by
  rw [hk]
  simp [kLt, lt_self_iff_false]

theorem kGt_self_false {pv : String} {o : Option String} (hk : o = some pv) :
    kGt o pv = false := by
  rw [hk]
  simp [kGt, lt_self_iff_false]

theorem filter_kLt_length_le (key : α → Option String) (p b : α) (t : List α)
    {pv : String} (hk : key p = some pv) :
    ((p :: b :: t).filter (fun x => kLt (key x) pv)).length ≤ t.length + 1 := by
  rw [List.filter_cons, kLt_self_false hk]
  simp only [Bool.false_eq_true, if_false]
  have := List.length_filter_le (fun x => kLt (key x) pv) (b :: t)
  simpa using this

theorem filter_kGt_length_le (key : α → Option String) (p b : α) (t : List α)
    {pv : String} (hk : key p = some pv) :
    ((p :: b :: t).filter (fun x => kGt (key x) pv)).length ≤ t.length + 1 := by
  rw [List.filter_cons, kGt_self_false hk]
  simp only [Bool.false_eq_true, if_false]
  have := List.length_filter_le (fun x => kGt (key x) pv) (b :: t)
  simpa using this

theorem quick_sort_filter_eq (key : α → Option String) (v : String) :
    ∀ (n : Nat) (l : List α), l.length ≤ n →
      (quick_sort key l).filter (fun x => kEq (key x) v)
        = l.filter (fun x => kEq (key x) v) := by
  intro n
  induction n with
  | zero =>
    intro l hl
    have hnil : l = [] := List.length_eq_zero.mp (Nat.le_zero.mp hl)
    subst hnil
    rw [quick_sort]
  | succ n ih =>
    intro l hl
    match l with
    | [] => rw [quick_sort]
    | [a] => rw [quick_sort]
    | p :: b :: t =>
      rcases hk : key p with _ | pv
      · rw [quick_sort_pivot_none key p (b :: t) hk]
      · rw [quick_sort_eq_parts key p b t hk]
        simp only [List.length_cons] at hl
        have hlenLt : ((p :: b :: t).filter (fun x => kLt (key x) pv)).length ≤ n := by
          have := filter_kLt_length_le key p b t hk
          omega
        have hlenGt : ((p :: b :: t).filter (fun x => kGt (key x) pv)).length ≤ n := by
          have := filter_kGt_length_le key p b t hk
          omega
        rw [List.filter_append, List.filter_append, ih _ hlenLt, ih _ hlenGt,
          List.filter_filter, List.filter_filter, List.filter_filter]
        rcases lt_trichotomy v pv with hv | hv | hv
        · have e1 : (p :: b :: t).filter
              (fun a => kEq (key a) v && kLt (key a) pv)
              = (p :: b :: t).filter (fun a => kEq (key a) v) := by
            apply List.filter_congr
            intro x _
            rcases hx2 : key x with _ | w
            · simp [kEq]
            · by_cases hw : w = v
              · subst hw
                simp [kEq, kLt, hv]
              · simp [kEq, hw]
          have e2 : (p :: b :: t).filter
              (fun a => kEq (key a) v && kEq (key a) pv) = [] := by
            apply List.filter_eq_nil_iff.mpr
            intro x _
            rcases hx2 : key x with _ | w
            · simp [kEq]
            · by_cases hw : w = v
              · subst hw
                simp [kEq, ne_of_lt hv]
              · simp [kEq, hw]
          have e3 : (p :: b :: t).filter
              (fun a => kEq (key a) v && kGt (key a) pv) = [] := by
            apply List.filter_eq_nil_iff.mpr
            intro x _
            rcases hx2 : key x with _ | w
            · simp [kEq]
            · by_cases hw : w = v
              · subst hw
                simp [kEq, kGt, not_lt_of_lt hv]
              · simp [kEq, hw]
          rw [e1, e2, e3, List.append_nil, List.append_nil]
        · have e1 : (p :: b :: t).filter
              (fun a => kEq (key a) v && kLt (key a) pv) = [] := by
            apply List.filter_eq_nil_iff.mpr
            intro x _
            rcases hx2 : key x with _ | w
            · simp [kEq]
            · by_cases hw : w = v
              · subst hw
                simp [kEq, kLt, hv, lt_self_iff_false]
              · simp [kEq, hw]
          have e2 : (p :: b :: t).filter
              (fun a => kEq (key a) v && kEq (key a) pv)
              = (p :: b :: t).filter (fun a => kEq (key a) v) := by
            apply List.filter_congr
            intro x _
            rcases hx2 : key x with _ | w
            · simp [kEq]
            · by_cases hw : w = v
              · subst hw
                simp [kEq, hv]
              · simp [kEq, hw]
          have e3 : (p :: b :: t).filter
              (fun a => kEq (key a) v && kGt (key a) pv) = [] := by
            apply List.filter_eq_nil_iff.mpr
            intro x _
            rcases hx2 : key x with _ | w
            · simp [kEq]
            · by_cases hw : w = v
              · subst hw
                simp [kEq, kGt, hv, lt_self_iff_false]
              · simp [kEq, hw]
          rw [e1, e2, e3, List.append_nil, List.nil_append]
        · have e1 : (p :: b :: t).filter
              (fun a => kEq (key a) v && kLt (key a) pv) = [] := by
            apply List.filter_eq_nil_iff.mpr
            intro x _
            rcases hx2 : key x with _ | w
            · simp [kEq]
            · by_cases hw : w = v
              · subst hw
                simp [kEq, kLt, not_lt_of_lt hv]
              · simp [kEq, hw]
          have e2 : (p :: b :: t).filter
              (fun a => kEq (key a) v && kEq (key a) pv) = [] := by
            apply List.filter_eq_nil_iff.mpr
            intro x _
            rcases hx2 : key x with _ | w
            · simp [kEq]
            · by_cases hw : w = v
              · subst hw
                simp [kEq, (ne_of_lt hv).symm]
              · simp [kEq, hw]
          have e3 : (p :: b :: t).filter
              (fun a => kEq (key a) v && kGt (key a) pv)
              = (p :: b :: t).filter (fun a => kEq (key a) v) := by
            apply List.filter_congr
            intro x _
            rcases hx2 : key x with _ | w
            · simp [kEq]
            · by_cases hw : w = v
              · subst hw
                simp [kEq, kGt, hv]
              · simp [kEq, hw]
          rw [e1, e2, e3, List.nil_append, List.nil_append]

theorem quick_sort_perm (key : α → Option String) :
    ∀ (n : Nat) (l : List α), l.length ≤ n → (∀ x ∈ l, (key x).isSome) →
      (quick_sort key l).Perm l := by
  intro n
  induction n with
  | zero =>
    intro l hl _
    have hnil : l = [] := List.length_eq_zero.mp (Nat.le_zero.mp hl)
    subst hnil
    rw [quick_sort]
  | succ n ih =>
    intro l hl hsome
    match l with
    | [] => rw [quick_sort]
    | [a] => rw [quick_sort]
    | p :: b :: t =>
      rcases hk : key p with _ | pv
      · have hp := hsome p (List.mem_cons_self _ _)
        rw [hk] at hp
        simp at hp
      · simp only [List.length_cons] at hl
        have hsub : ∀ (pred : α → Bool) (x : α),
            x ∈ (p :: b :: t).filter pred → (key x).isSome :=
          fun pred x hx => hsome x (List.mem_of_mem_filter hx)
        have permL := ih ((p :: b :: t).filter (fun x => kLt (key x) pv))
          (by have := filter_kLt_length_le key p b t hk; omega) (hsub _)
        have permR := ih ((p :: b :: t).filter (fun x => kGt (key x) pv))
          (by have := filter_kGt_length_le key p b t hk; omega) (hsub _)
        rw [quick_sort_eq_parts key p b t hk]
        have hMeq : ((p :: b :: t).filter
              (fun a => !(kLt (key a) pv))).filter (fun a => kEq (key a) pv)
            = (p :: b :: t).filter (fun a => kEq (key a) pv) := by
          rw [List.filter_filter]
          apply List.filter_congr
          intro x _
          rcases hw : key x with _ | w
          · simp [kEq]
          · by_cases hwe : w = pv
            · subst hwe
              simp [kEq, kLt, lt_self_iff_false]
            · simp [kEq, hwe]
        have hReq : ((p :: b :: t).filter
              (fun a => !(kLt (key a) pv))).filter (fun a => !(kEq (key a) pv))
            = (p :: b :: t).filter (fun a => kGt (key a) pv) := by
          rw [List.filter_filter]
          apply List.filter_congr
          intro x hx
          have hx2 := hsome x hx
          rcases hw : key x with _ | w
          · rw [hw] at hx2
            simp at hx2
          · simp only [kEq, kLt, kGt]
            rcases lt_trichotomy w pv with h | h | h
            · have d1 : decide (w = pv) = false := by simp [ne_of_lt h]
              have d2 : decide (w < pv) = true := by simp [h]
              have d3 : decide (pv < w) = false := by simp [lt_asymm h]
              rw [d1, d2, d3]
              rfl
            · subst h
              have d1 : decide (w = w) = true := by simp
              have d3 : decide (w < w) = false := by simp [lt_irrefl]
              rw [d1, d3]
              rfl
            · have d1 : decide (w = pv) = false := by simp [(ne_of_lt h).symm]
              have d2 : decide (w < pv) = false := by simp [lt_asymm h]
              have d3 : decide (pv < w) = true := by simp [h]
              rw [d1, d2, d3]
              rfl
        have h3 : ((p :: b :: t).filter (fun a => kEq (key a) pv)
              ++ (p :: b :: t).filter (fun a => kGt (key a) pv)).Perm
            ((p :: b :: t).filter (fun a => !(kLt (key a) pv))) := by
          rw [← hMeq, ← hReq]
          exact List.filter_append_perm _ _
        rw [List.append_assoc]
        refine List.Perm.trans
          (permL.append ((List.Perm.refl _).append permR)) ?_
        refine List.Perm.trans (List.Perm.append_left _ h3) ?_
        exact List.filter_append_perm _ _

theorem mem_filter_kLt {key : α → Option String} {pv : String} {l : List α}
    {x : α} (hx : x ∈ l.filter (fun a => kLt (key a) pv)) :
    ∃ w, key x = some w ∧ w < pv := by
  have := List.of_mem_filter hx
  rcases hw : key x with _ | w
  · rw [hw] at this
    simp [kLt] at this
  · rw [hw] at this
    simp only [kLt, decide_eq_true_eq] at this
    exact ⟨w, rfl, this⟩

theorem mem_filter_kEq {key : α → Option String} {pv : String} {l : List α}
    {x : α} (hx : x ∈ l.filter (fun a => kEq (key a) pv)) :
    key x = some pv := by
  have := List.of_mem_filter hx
  rcases hw : key x with _ | w
  · rw [hw] at this
    simp [kEq] at this
  · rw [hw] at this
    simp only [kEq, decide_eq_true_eq] at this
    rw [this]

theorem mem_filter_kGt {key : α → Option String} {pv : String} {l : List α}
    {x : α} (hx : x ∈ l.filter (fun a => kGt (key a) pv)) :
    ∃ w, key x = some w ∧ pv < w := by
  have := List.of_mem_filter hx
  rcases hw : key x with _ | w
  · rw [hw] at this
    simp [kGt] at this
  · rw [hw] at this
    simp only [kGt, decide_eq_true_eq] at this
    exact ⟨w, rfl, this⟩

theorem kle_of_le {wa wb : String} (h : wa ≤ wb) {oa ob : Option String}
    (ha : oa = some wa) (hb : ob = some wb) : kle oa ob = true := by
  subst ha
  subst hb
  simpa [kle] using h

theorem quick_sort_sorted (key : α → Option String) :
    ∀ (n : Nat) (l : List α), l.length ≤ n → (∀ x ∈ l, (key x).isSome) →
      sortedByKey key (quick_sort key l) := by
  intro n
  induction n with
  | zero =>
    intro l hl _
    have hnil : l = [] := List.length_eq_zero.mp (Nat.le_zero.mp hl)
    subst hnil
    rw [quick_sort]
    exact List.Pairwise.nil
  | succ n ih =>
    intro l hl hsome
    match l with
    | [] =>
      rw [quick_sort]
      exact List.Pairwise.nil
    | [a] =>
      rw [quick_sort]
      exact List.pairwise_singleton _ _
    | p :: b :: t =>
      rcases hk : key p with _ | pv
      · have hp := hsome p (List.mem_cons_self _ _)
        rw [hk] at hp
        simp at hp
      · simp only [List.length_cons] at hl
        have hsub : ∀ (pred : α → Bool) (x : α),
            x ∈ (p :: b :: t).filter pred → (key x).isSome :=
          fun pred x hx => hsome x (List.mem_of_mem_filter hx)
        have hlenL : ((p :: b :: t).filter (fun x => kLt (key x) pv)).length ≤ n := by
          have := filter_kLt_length_le key p b t hk
          omega
        have hlenR : ((p :: b :: t).filter (fun x => kGt (key x) pv)).length ≤ n := by
          have := filter_kGt_length_le key p b t hk
          omega
        have sortedL := ih _ hlenL (hsub (fun x => kLt (key x) pv))
        have sortedR := ih _ hlenR (hsub (fun x => kGt (key x) pv))
        have permL := quick_sort_perm key n _ hlenL (hsub (fun x => kLt (key x) pv))
        have permR := quick_sort_perm key n _ hlenR (hsub (fun x => kGt (key x) pv))
        rw [quick_sort_eq_parts key p b t hk]
        unfold sortedByKey at sortedL sortedR ⊢
        rw [List.pairwise_append]
        refine ⟨?_, sortedR, ?_⟩
        · rw [List.pairwise_append]
          refine ⟨sortedL, ?_, ?_⟩
          · apply List.pairwise_of_forall_mem_list
            intro a ha b2 hb
            exact kle_of_le le_rfl (mem_filter_kEq ha) (mem_filter_kEq hb)
          · intro a ha b2 hb
            rcases mem_filter_kLt (permL.mem_iff.mp ha) with ⟨wa, hwa, hlt⟩
            exact kle_of_le (le_of_lt hlt) hwa (mem_filter_kEq hb)
        · intro a ha b2 hb
          rcases mem_filter_kGt (permR.mem_iff.mp hb) with ⟨wb, hwb, hgt⟩
          rcases List.mem_append.mp ha with h1 | h1
          · rcases mem_filter_kLt (permL.mem_iff.mp h1) with ⟨wa, hwa, hlt⟩
            exact kle_of_le (le_of_lt (lt_trans hlt hgt)) hwa hwb
          · exact kle_of_le (le_of_lt hgt) (mem_filter_kEq h1) hwb

theorem eq_gt_split (key : α → Option String) (pv : String) :
    ∀ l : List α, (∀ x ∈ l, (key x).isSome) → sortedByKey key l →
      (∀ x ∈ l, kLt (key x) pv = false) →
      l.filter (fun x => kEq (key x) pv) ++ l.filter (fun x => kGt (key x) pv)
        = l := by
  intro l
  induction l with
  | nil => intro _ _ _; rfl
  | cons x xs ih =>
    intro hsome hsort hmin
    have hx := hsome x (List.mem_cons_self _ _)
    rcases hw : key x with _ | w
    · rw [hw] at hx
      simp at hx
    · have hnotlt : ¬ (w < pv) := by
        have := hmin x (List.mem_cons_self _ _)
        rw [hw] at this
        simpa [kLt] using this
      unfold sortedByKey at hsort
      rcases hsort with _ | ⟨hrel, hsort2⟩
      by_cases hwe : w = pv
      · subst hwe
        rw [List.filter_cons, List.filter_cons]
        have h1 : kEq (key x) w = true := by
          rw [hw]
          simp [kEq]
        have h2 : kGt (key x) w = false := by
          rw [hw]
          simp [kGt, lt_self_iff_false]
        simp only [h1, h2, if_true, Bool.false_eq_true, if_false]
        rw [List.cons_append]
        congr 1
        exact ih (fun y hy => hsome y (List.mem_cons_of_mem _ hy)) hsort2
          (fun y hy => hmin y (List.mem_cons_of_mem _ hy))
      · have hgt : pv < w := lt_of_le_of_ne (le_of_not_lt hnotlt) (Ne.symm hwe)
        have hkey : ∀ y ∈ xs, ∃ wy, key y = some wy ∧ pv < wy := by
          intro y hy
          have hy2 := hsome y (List.mem_cons_of_mem _ hy)
          rcases hwy : key y with _ | wy
          · rw [hwy] at hy2
            simp at hy2
          · refine ⟨wy, rfl, ?_⟩
            have hr := hrel y hy
            rw [hw, hwy] at hr
            simp only [kle, decide_eq_true_eq] at hr
            exact lt_of_lt_of_le hgt hr
        rw [List.filter_cons, List.filter_cons]
        have h1 : kEq (key x) pv = false := by
          rw [hw]
          simp [kEq, hwe]
        have h2 : kGt (key x) pv = true := by
          rw [hw]
          simp [kGt, hgt]
        simp only [h1, h2, Bool.false_eq_true, if_false, if_true]
        have h3 : xs.filter (fun y => kEq (key y) pv) = [] := by
          apply List.filter_eq_nil_iff.mpr
          intro y hy
          rcases hkey y hy with ⟨wy, hwy, hlt⟩
          rw [hwy]
          simp [kEq]
          exact (ne_of_lt hlt).symm
        have h4 : xs.filter (fun y => kGt (key y) pv) = xs := by
          apply List.filter_eq_self.mpr
          intro y hy
          rcases hkey y hy with ⟨wy, hwy, hlt⟩
          rw [hwy]
          simp [kGt, hlt]
        rw [h3, h4, List.nil_append]

theorem quick_sort_sorted_eq (key : α → Option String) :
    ∀ (n : Nat) (l : List α), l.length ≤ n → (∀ x ∈ l, (key x).isSome) →
      sortedByKey key l → quick_sort key l = l := by
  intro n
  induction n with
  | zero =>
    intro l hl _ _
    have hnil : l = [] := List.length_eq_zero.mp (Nat.le_zero.mp hl)
    subst hnil
    rw [quick_sort]
  | succ n ih =>
    intro l hl hsome hsort
    match l with
    | [] => rw [quick_sort]
    | [a] => rw [quick_sort]
    | p :: b :: t =>
      rcases hk : key p with _ | pv
      · have hp := hsome p (List.mem_cons_self _ _)
        rw [hk] at hp
        simp at hp
      · simp only [List.length_cons] at hl
        have hrel : ∀ y ∈ b :: t, kle (key p) (key y) = true := by
          unfold sortedByKey at hsort
          rcases hsort with _ | ⟨hrel, _⟩
          exact hrel
        have hmin : ∀ x ∈ p :: b :: t, kLt (key x) pv = false := by
          intro x hx
          rcases List.mem_cons.mp hx with rfl | hx2
          · exact kLt_self_false hk
          · have hr := hrel x hx2
            rw [hk] at hr
            rcases hwx : key x with _ | wx
            · simp [kLt]
            · rw [hwx] at hr
              simp only [kle, decide_eq_true_eq] at hr
              simp [kLt, not_lt_of_le hr]
        have hL : (p :: b :: t).filter (fun x => kLt (key x) pv) = [] :=
          List.filter_eq_nil_iff.mpr (fun x hx => by simp [hmin x hx])
        have hRs : sortedByKey key ((p :: b :: t).filter (fun x => kGt (key x) pv)) := by
          unfold sortedByKey at hsort ⊢
          exact hsort.filter _
        have hR : quick_sort key ((p :: b :: t).filter (fun x => kGt (key x) pv))
            = (p :: b :: t).filter (fun x => kGt (key x) pv) := by
          apply ih _ (by have := filter_kGt_length_le key p b t hk; omega)
            (fun x hx => hsome x (List.mem_of_mem_filter hx)) hRs
        have hnil : quick_sort key ([] : List α) = [] := by rw [quick_sort]
        rw [quick_sort_eq_parts key p b t hk, hL, hnil, List.nil_append, hR]
        exact eq_gt_split key pv (p :: b :: t) hsome hsort hmin

/-! ## Properties of `group_sort` -/

theorem lookupGroup_nil (k : Option String) :
    lookupGroup ([] : List (Option String × List α)) k = [] := rfl

theorem lookupGroup_cons (k0 : Option String) (xs : List α)
    (rest : List (Option String × List α)) (k2 : Option String) :
    lookupGroup ((k0, xs) :: rest) k2
      = if k0 = k2 then xs else lookupGroup rest k2 := by
  unfold lookupGroup
  by_cases h : k0 = k2
  · rw [if_pos h, List.find?_cons_of_pos _ (by simp [h])]
  · rw [if_neg h, List.find?_cons_of_neg _ (by simp [h])]

theorem lookupGroup_insertGroup (gs : List (Option String × List α))
    (k : Option String) (x : α) (k2 : Option String) :
    lookupGroup (insertGroup gs k x) k2
      = if k2 = k then lookupGroup gs k ++ [x] else lookupGroup gs k2 := by
  induction gs with
  | nil =>
    rw [insertGroup]
    by_cases h : k2 = k
    · rw [if_pos h, lookupGroup_cons, if_pos h.symm, lookupGroup_nil,
        List.nil_append]
    · rw [if_neg h, lookupGroup_cons, if_neg (fun hEq => h hEq.symm)]
  | cons p rest ih =>
    rcases p with ⟨k0, xs⟩
    rw [insertGroup]
    by_cases hk0 : k0 = k
    · subst hk0
      rw [if_pos rfl]
      by_cases h2 : k0 = k2
      · subst h2
        rw [lookupGroup_cons, if_pos rfl, if_pos rfl, lookupGroup_cons, if_pos rfl]
      · rw [lookupGroup_cons, if_neg h2, if_neg (fun hEq => h2 hEq.symm),
          lookupGroup_cons, if_neg h2]
    · rw [if_neg hk0]
      by_cases h2 : k0 = k2
      · subst h2
        have hne : ¬ (k0 = k) := hk0
        rw [lookupGroup_cons, if_pos rfl, if_neg hne, lookupGroup_cons,
          if_pos rfl]
      · rw [lookupGroup_cons, if_neg h2, ih]
        by_cases h3 : k2 = k
        · rw [if_pos h3, if_pos h3, lookupGroup_cons, if_neg hk0]
        · rw [if_neg h3, if_neg h3, lookupGroup_cons, if_neg h2]

theorem lookupGroup_foldl (pk : α → Option String) :
    ∀ (arr : List α) (gs : List (Option String × List α)) (k : Option String),
      lookupGroup (arr.foldl (fun gs x => insertGroup gs (pk x) x) gs) k
        = lookupGroup gs k ++ arr.filter (fun x => pk x == k) := by
  intro arr
  induction arr with
  | nil =>
    intro gs k
    simp
  | cons a rest ih =>
    intro gs k
    rw [List.foldl_cons, ih, lookupGroup_insertGroup, List.filter_cons]
    by_cases h : k = pk a
    · rw [if_pos h]
      have hb : (pk a == k) = true := by simp [h]
      rw [hb, if_pos rfl, List.append_assoc, List.singleton_append, h]
    · rw [if_neg h]
      have hb : (pk a == k) = false := by simp; exact fun hEq => h hEq.symm
      rw [hb]
      simp

theorem lookupGroup_buildGroups (pk : α → Option String) (arr : List α)
    (k : Option String) :
    lookupGroup (buildGroups pk arr) k = arr.filter (fun x => pk x == k) := by
  unfold buildGroups
  rw [lookupGroup_foldl, lookupGroup_nil, List.nil_append]

theorem mem_keys_insertGroup (gs : List (Option String × List α))
    (k0 : Option String) (x : α) (k : Option String) :
    k ∈ (insertGroup gs k0 x).map Prod.fst
      ↔ k ∈ gs.map Prod.fst ∨ k = k0 := by
  induction gs with
  | nil =>
    rw [insertGroup]
    simp
  | cons p rest ih =>
    rcases p with ⟨k1, xs⟩
    rw [insertGroup]
    by_cases h : k1 = k0
    · subst h
      rw [if_pos rfl]
      simp only [List.map_cons, List.mem_cons]
      constructor
      · exact fun hc => Or.inl hc
      · rintro (hc | hc)
        · exact hc
        · exact Or.inl hc
    · rw [if_neg h]
      simp only [List.map_cons, List.mem_cons, ih]
      tauto

theorem nodup_keys_insertGroup (gs : List (Option String × List α))
    (k0 : Option String) (x : α) (h : (gs.map Prod.fst).Nodup) :
    ((insertGroup gs k0 x).map Prod.fst).Nodup := by
  induction gs with
  | nil =>
    rw [insertGroup]
    simp
  | cons p rest ih =>
    rcases p with ⟨k1, xs⟩
    rw [insertGroup]
    simp only [List.map_cons, List.nodup_cons] at h
    by_cases hk : k1 = k0
    · rw [if_pos hk]
      simp only [List.map_cons, List.nodup_cons]
      exact h
    · rw [if_neg hk]
      simp only [List.map_cons, List.nodup_cons]
      refine ⟨?_, ih h.2⟩
      rw [mem_keys_insertGroup]
      rintro (hc | hc)
      · exact h.1 hc
      · exact hk hc

theorem keys_foldl_props (pk : α → Option String) :
    ∀ (arr : List α) (gs : List (Option String × List α)),
      ((gs.map Prod.fst).Nodup →
        (((arr.foldl (fun gs x => insertGroup gs (pk x) x) gs).map
          Prod.fst).Nodup))
      ∧ (∀ k, k ∈ (arr.foldl (fun gs x => insertGroup gs (pk x) x) gs).map
            Prod.fst
          ↔ k ∈ gs.map Prod.fst ∨ ∃ x ∈ arr, pk x = k) := by
  intro arr
  induction arr with
  | nil =>
    intro gs
    simp
  | cons a rest ih =>
    intro gs
    rw [List.foldl_cons]
    constructor
    · intro h
      exact (ih _).1 (nodup_keys_insertGroup gs (pk a) a h)
    · intro k
      rw [(ih _).2 k, mem_keys_insertGroup]
      simp only [List.mem_cons]
      constructor
      · rintro ((hc | hc) | ⟨y, hy, hyk⟩)
        · exact Or.inl hc
        · exact Or.inr ⟨a, Or.inl rfl, hc.symm⟩
        · exact Or.inr ⟨y, Or.inr hy, hyk⟩
      · rintro (hc | ⟨y, (rfl | hy), hyk⟩)
        · exact Or.inl (Or.inl hc)
        · exact Or.inl (Or.inr hyk.symm)
        · exact Or.inr ⟨y, hy, hyk⟩

theorem foldl_append_join (f : Option String → List α) :
    ∀ (ks : List (Option String)) (acc : List α),
      ks.foldl (fun acc k => acc ++ f k) acc = acc ++ (ks.map f).flatten := by
  intro ks
  induction ks with
  | nil =>
    intro acc
    simp
  | cons k rest ih =>
    intro acc
    rw [List.foldl_cons, ih, List.map_cons, List.append_assoc, List.flatten_cons]

/-! ## Claim theorems -/

/-- C7: `find_route` terminates for every destination name and every finite
route graph, including graphs containing cycles: run with the fuel bound
`fuelBound g` (one step per possible dequeue), the BFS loop never exhausts
its fuel — it ends either by returning the first path found to the
destination or by exhausting the frontier and returning the empty
sequence, and `find_route` returns that definite result. -/
theorem find_route_terminates (g : List (String × List String)) (dest : String) :
    ∃ r : List String,
      bfsFuel g dest (fuelBound g) [("Warehouse", ["Warehouse"])] [] = some r
        ∧ find_route g dest = r := by
  have h : phi g [] [("Warehouse", ["Warehouse"])] < fuelBound g := by
    have hfil : g.filter (fun p => decide (p.1 ∉ ([] : List String))) = g :=
      List.filter_eq_self.mpr (fun a _ => by simp)
    simp only [phi, phiVisited, fuelBound, hfil, List.length_singleton]
    omega
  have h2 := bfsFuel_isSome_of_lt g dest (fuelBound g) _ [] h
  rcases Option.isSome_iff_exists.mp h2 with ⟨r, hr⟩
  refine ⟨r, hr, ?_⟩
  unfold find_route
  rw [hr]
  rfl

/-- C1: on the fixed reference graph, `find_route` returns `["Warehouse"]`
for the depot itself (travel time 0), `[Warehouse, Area A, Area D]` for
`"Area D"` (travel time 6), and the empty sequence for every name that is
not one of the seven reachable nodes. -/
theorem find_route_reference_values :
    find_route routes "Warehouse" = ["Warehouse"]
      ∧ calculate_travel_time ["Warehouse"] = 0
      ∧ find_route routes "Area D" = ["Warehouse", "Area A", "Area D"]
      ∧ calculate_travel_time ["Warehouse", "Area A", "Area D"] = 6
      ∧ ∀ dest : String,
          dest ∉ ["Warehouse", "Area A", "Area B", "Area C", "Area D",
            "Area E", "Area F"] → find_route routes dest = [] := by
  refine ⟨by decide, by decide, by decide, by decide, ?_⟩
  intro dest hd
  simp only [List.mem_cons, List.mem_singleton, not_or] at hd
  apply find_route_unreachable
  · exact hd.1
  · intro p hp hmem
    fin_cases hp <;> simp_all

/-- Witness for C1: the non-node name `"Unknown"` gets the empty route. -/
theorem find_route_reference_values_witness : find_route routes "Unknown" = [] :=
  find_route_reference_values.2.2.2.2 "Unknown" (by decide)

theorem register_delivery_dup {s : SystemState} {pid a b c : String}
    (h : id_exists s.deliveries pid = true) :
    register_delivery s pid a b c = (s, RegisterResult.duplicateId) := by
  unfold register_delivery
  rw [if_pos (by simp [h])]

theorem register_delivery_not_dup {s : SystemState} {pid a b c : String}
    (h : id_exists s.deliveries pid = false) :
    register_delivery s pid a b c
      = (⟨s.deliveries ++
            [⟨pid, a, b, c,
              if (get_active_delivery s.deliveries).isSome
              then "Pending" else "Dispatched"⟩],
          s.queue ++ [s.deliveries.length], s.completed⟩, RegisterResult.ok) := by
  unfold register_delivery
  rw [if_neg (by simp [h])]
  rcases hga : get_active_delivery s.deliveries with _ | d <;> simp [hga]

/-- C3: registration fails with `duplicateId` exactly when a record with
the same id is already in the store, and on that failure the whole state
(store and queue) is unchanged; after a successful registration the id
exists in the store, and a second registration with the same id fails
with `duplicateId` and leaves the state unchanged. -/
theorem register_delivery_duplicate (s : SystemState)
    (pid a b c a2 b2 c2 : String) :
    (id_exists s.deliveries pid = true →
      register_delivery s pid a b c = (s, RegisterResult.duplicateId))
    ∧ (id_exists s.deliveries pid = false →
        id_exists (register_delivery s pid a b c).1.deliveries pid = true
        ∧ register_delivery (register_delivery s pid a b c).1 pid a2 b2 c2
            = ((register_delivery s pid a b c).1, RegisterResult.duplicateId)) := by
  constructor
  · intro h
    exact register_delivery_dup h
  · intro h
    have hex : id_exists (register_delivery s pid a b c).1.deliveries pid = true := by
      rw [register_delivery_not_dup h]
      simp [id_exists]
    exact ⟨hex, register_delivery_dup hex⟩

/-- Witness for C3: registering `"P1"` into the empty state, then again. -/
theorem register_delivery_duplicate_witness :
    id_exists (register_delivery ⟨[], [], []⟩ "P1" "Al" "Bo" "Area D").1.deliveries
        "P1" = true
      ∧ register_delivery (register_delivery ⟨[], [], []⟩ "P1" "Al" "Bo" "Area D").1
            "P1" "x" "y" "z"
          = ((register_delivery ⟨[], [], []⟩ "P1" "Al" "Bo" "Area D").1,
             RegisterResult.duplicateId) :=
  (register_delivery_duplicate ⟨[], [], []⟩ "P1" "Al" "Bo" "Area D" "x" "y" "z").2
    (by decide)

/-- C4: a successful registration appends exactly one new record to both
the store and the queue (the same record, seen through the queue by
position); its status is `Pending` when some record is currently active
(`Dispatched` or `Out for Delivery`, first match in store order) and
`Dispatched` otherwise; and starting from a store that is empty or fully
`Delivered`, after any single `register_delivery` call at most one record
is active. -/
theorem register_delivery_single_active (s : SystemState) (pid a b c : String) :
    (id_exists s.deliveries pid = false →
      (register_delivery s pid a b c).1.deliveries
          = s.deliveries ++
            [{ id := pid, sender := a, receiver := b, destination := c,
               status :=
                 if ∃ d ∈ s.deliveries,
                     d.status = "Dispatched" ∨ d.status = "Out for Delivery"
                 then "Pending" else "Dispatched" }]
        ∧ (register_delivery s pid a b c).1.queue = s.queue ++ [s.deliveries.length]
        ∧ (register_delivery s pid a b c).2 = RegisterResult.ok)
    ∧ ((∀ d ∈ s.deliveries, d.status = "Delivered") →
        ((register_delivery s pid a b c).1.deliveries.filter
            (fun d => decide (d.status = "Dispatched")
              || decide (d.status = "Out for Delivery"))).length ≤ 1) := by
  have hiff : (get_active_delivery s.deliveries).isSome = true
      ↔ ∃ d ∈ s.deliveries,
          d.status = "Dispatched" ∨ d.status = "Out for Delivery" := by
    constructor
    · intro hs
      rcases Option.isSome_iff_exists.mp hs with ⟨d, hd⟩
      refine ⟨d, List.mem_of_find?_eq_some hd, ?_⟩
      simpa using List.find?_some hd
    · rintro ⟨d, hd, hp⟩
      rcases hga : get_active_delivery s.deliveries with _ | d2
      · have hnone := List.find?_eq_none.mp hga
        exact absurd (by simpa using hp) (hnone d hd)
      · rfl
  have hfilnil : (∀ d ∈ s.deliveries, d.status = "Delivered") →
      s.deliveries.filter
        (fun d => decide (d.status = "Dispatched")
          || decide (d.status = "Out for Delivery")) = [] := by
    intro hall
    apply List.filter_eq_nil_iff.mpr
    intro d hd
    have := hall d hd
    simp [this]
  constructor
  · intro h
    rw [register_delivery_not_dup h]
    refine ⟨?_, rfl, rfl⟩
    by_cases hact : ∃ d ∈ s.deliveries,
        d.status = "Dispatched" ∨ d.status = "Out for Delivery"
    · rw [if_pos hact, if_pos (hiff.mpr hact)]
    · rw [if_neg hact, if_neg (fun hs => hact (hiff.mp hs))]
  · intro hall
    by_cases hdup : id_exists s.deliveries pid
    · rw [register_delivery_dup hdup]
      simp [hfilnil hall]
    · simp only [Bool.not_eq_true] at hdup
      rw [register_delivery_not_dup hdup]
      simp only [List.filter_append, List.length_append, hfilnil hall,
        List.length_nil, Nat.zero_add]
      exact List.length_filter_le _ _

theorem findById_some {ds : List DeliveryRec} {pid : String} :
    ∀ {i : Nat} {d : DeliveryRec}, findById ds pid = some (i, d) →
      ds.get? i = some d ∧ d.id = pid := by
  induction ds with
  | nil => intro i d h; simp [findById] at h
  | cons d0 rest ih =>
    intro i d h
    rw [findById] at h
    by_cases h0 : d0.id = pid
    · rw [if_pos h0] at h
      cases h
      exact ⟨rfl, h0⟩
    · rw [if_neg h0] at h
      rcases hr : findById rest pid with _ | p
      · rw [hr] at h
        simp at h
      · rw [hr] at h
        simp only [Option.map_some'] at h
        cases h
        have hrec := ih hr
        exact ⟨by simpa using hrec.1, hrec.2⟩

theorem dispatch_next_pending_completed (s : SystemState) :
    (dispatch_next_pending s).1.completed = s.completed
      ∧ (dispatch_next_pending s).1.queue = s.queue := by
  unfold dispatch_next_pending
  rcases h : s.queue.find? (pendingAt s.deliveries) with _ | i <;> simp

theorem setStatusAt_length (ds : List DeliveryRec) (i : Nat) (st : String) :
    (setStatusAt ds i st).length = ds.length := by
  unfold setStatusAt
  rcases h : ds.get? i with _ | d
  · rfl
  · simp

theorem update_status_noActive {s : SystemState} {pid choice : String}
    (h : (s.deliveries.filter (fun d => decide (d.status ≠ "Delivered"))).isEmpty
      = true) :
    update_status s pid choice = (s, UpdateResult.noActive) := by
  unfold update_status
  rw [if_pos h]

theorem update_status_notFound {s : SystemState} {pid choice : String}
    (hne : (s.deliveries.filter (fun d => decide (d.status ≠ "Delivered"))).isEmpty
      = false)
    (hf : findById s.deliveries pid = none) :
    update_status s pid choice = (s, UpdateResult.notFound) := by
  unfold update_status
  rw [if_neg (by rw [hne]; exact Bool.false_ne_true), hf]

theorem update_status_invalid {s : SystemState} {pid choice : String}
    {i : Nat} {d : DeliveryRec}
    (hne : (s.deliveries.filter (fun d => decide (d.status ≠ "Delivered"))).isEmpty
      = false)
    (hf : findById s.deliveries pid = some (i, d))
    (hc : statusOfChoice choice = none) :
    update_status s pid choice = (s, UpdateResult.invalidChoice) := by
  unfold update_status
  rw [if_neg (by rw [hne]; exact Bool.false_ne_true), hf, hc]

theorem update_status_found {s : SystemState} {pid choice : String}
    {i : Nat} {d : DeliveryRec} {ns : String}
    (hne : (s.deliveries.filter (fun d => decide (d.status ≠ "Delivered"))).isEmpty
      = false)
    (hf : findById s.deliveries pid = some (i, d))
    (hc : statusOfChoice choice = some ns) :
    update_status s pid choice
      = if ns = "Delivered" ∧ (d.status = "Dispatched" ∨ d.status = "Out for Delivery")
        then ((dispatch_next_pending
            ⟨s.deliveries.set i ⟨d.id, d.sender, d.receiver, d.destination, ns⟩,
              s.queue, s.completed ++ [mkCompletion d]⟩).1, UpdateResult.updated d.status)
        else (⟨s.deliveries.set i ⟨d.id, d.sender, d.receiver, d.destination, ns⟩,
            s.queue, s.completed⟩, UpdateResult.updated d.status) := by
  unfold update_status
  rw [if_neg (by rw [hne]; exact Bool.false_ne_true), hf, hc]

theorem active_filter_ne_nil {s : SystemState} {d : DeliveryRec}
    (hd : d ∈ s.deliveries) (hst : d.status ≠ "Delivered") :
    (s.deliveries.filter (fun d => decide (d.status ≠ "Delivered"))).isEmpty
      = false := by
  have hmem : d ∈ s.deliveries.filter (fun d => decide (d.status ≠ "Delivered")) :=
    List.mem_filter.mpr ⟨hd, by simpa using hst⟩
  rcases hfil : s.deliveries.filter (fun d => decide (d.status ≠ "Delivered")) with _ | _
  · rw [hfil] at hmem
    simp at hmem
  · rw [hfil]
    rfl

/-- C2: updating a present record's status to `Delivered` (`choice "4"`)
appends exactly one completion record to the completion log when the old
status was `Dispatched` or `Out for Delivery`, carrying the record's id,
sender, receiver, origin `"Warehouse"`, destination, the BFS route
(`"N/A"` when empty) and the corresponding travel time (0 when the route
is empty) with status `"Delivered"`; when the old status was `Pending` or
already `Delivered` (or anything else), the completion log is unchanged. -/
theorem update_status_completion_log (s : SystemState) (pid : String) :
    ∀ i d, findById s.deliveries pid = some (i, d) →
      ((d.status = "Dispatched" ∨ d.status = "Out for Delivery") →
        (update_status s pid "4").1.completed
          = s.completed ++
            [{ id := d.id, sender := d.sender, receiver := d.receiver,
               origin := "Warehouse", destination := d.destination,
               route := if (find_route routes d.destination).isEmpty then "N/A"
                 else String.intercalate " -> " (find_route routes d.destination),
               time := if (find_route routes d.destination).isEmpty then 0
                 else calculate_travel_time (find_route routes d.destination),
               status := "Delivered" }])
      ∧ (¬(d.status = "Dispatched" ∨ d.status = "Out for Delivery") →
          (update_status s pid "4").1.completed = s.completed) := by
  intro i d hf
  have hget := (findById_some hf).1
  have hdmem : d ∈ s.deliveries := List.get?_mem hget
  have hc : statusOfChoice "4" = some "Delivered" := rfl
  constructor
  · intro hact
    have hst : d.status ≠ "Delivered" := by
      rcases hact with h | h <;> simp [h]
    have hne := active_filter_ne_nil hdmem hst
    rw [update_status_found hne hf hc, if_pos ⟨rfl, hact⟩]
    simp only [(dispatch_next_pending_completed _).1]
    rfl
  · intro hact
    by_cases hemp : (s.deliveries.filter
        (fun d => decide (d.status ≠ "Delivered"))).isEmpty = true
    · rw [update_status_noActive hemp]
    · rw [update_status_found (by simpa using hemp) hf hc,
        if_neg (fun hcon => hact hcon.2)]

/-- Witness for C2: completing the dispatched record `"P1"` appends its
completion record; updating the pending record `"P2"` to `Delivered`
leaves the completion log unchanged. -/
theorem update_status_completion_log_witness :
    (update_status
        ⟨[⟨"P1", "Al", "Bo", "Area D", "Dispatched"⟩,
          ⟨"P2", "Cy", "Di", "Area C", "Pending"⟩], [0, 1], []⟩ "P1" "4").1.completed
      = [] ++
        [{ id := "P1", sender := "Al", receiver := "Bo",
           origin := "Warehouse", destination := "Area D",
           route := if (find_route routes "Area D").isEmpty then "N/A"
             else String.intercalate " -> " (find_route routes "Area D"),
           time := if (find_route routes "Area D").isEmpty then 0
             else calculate_travel_time (find_route routes "Area D"),
           status := "Delivered" }]
    ∧ (update_status
        ⟨[⟨"P1", "Al", "Bo", "Area D", "Dispatched"⟩,
          ⟨"P2", "Cy", "Di", "Area C", "Pending"⟩], [0, 1], []⟩ "P2" "4").1.completed
      = [] :=
  ⟨((update_status_completion_log
        ⟨[⟨"P1", "Al", "Bo", "Area D", "Dispatched"⟩,
          ⟨"P2", "Cy", "Di", "Area C", "Pending"⟩], [0, 1], []⟩ "P1")
      0 ⟨"P1", "Al", "Bo", "Area D", "Dispatched"⟩ (by decide)).1 (by decide),
   ((update_status_completion_log
        ⟨[⟨"P1", "Al", "Bo", "Area D", "Dispatched"⟩,
          ⟨"P2", "Cy", "Di", "Area C", "Pending"⟩], [0, 1], []⟩ "P2")
      1 ⟨"P2", "Cy", "Di", "Area C", "Pending"⟩ (by decide)).2 (by decide)⟩

theorem get?_set_self {l : List DeliveryRec} {i : Nat} {b : DeliveryRec}
    (a : DeliveryRec) (h : l.get? i = some b) : (l.set i a).get? i = some a := by
  rw [List.get?_set_eq, h]
  rfl

theorem dispatch_next_pending_get_ne_pending {s : SystemState} {i : Nat}
    {d : DeliveryRec} (hget : s.deliveries.get? i = some d)
    (hnp : d.status ≠ "Pending") :
    (dispatch_next_pending s).1.deliveries.get? i = some d := by
  unfold dispatch_next_pending
  rcases h : s.queue.find? (pendingAt s.deliveries) with _ | i0
  · simpa using hget
  · have hp := List.find?_some h
    have hne : i0 ≠ i := by
      intro hEq
      subst hEq
      unfold pendingAt at hp
      rw [hget] at hp
      exact hnp (by simpa using hp)
    simp only []
    unfold setStatusAt
    rcases hg2 : s.deliveries.get? i0 with _ | d2
    · simpa using hget
    · rw [List.get?_set_ne _ _ hne]
      exact hget

/-- C6 counterexample: in a store whose only record is already
`Delivered`, the record's id is present and the status code `"1"` is
valid, yet `update_status` refuses with `noActive` and changes nothing —
it does not perform the mutation-and-return-old-status the claim
describes for every present id with a valid code. -/
theorem update_status_claim_counterexample :
    update_status ⟨[⟨"A", "s", "r", "Area C", "Delivered"⟩], [0], []⟩ "A" "1"
      = (⟨[⟨"A", "s", "r", "Area C", "Delivered"⟩], [0], []⟩, UpdateResult.noActive)
    ∧ (update_status ⟨[⟨"A", "s", "r", "Area C", "Delivered"⟩], [0], []⟩
        "A" "1").1.deliveries.map (fun d => d.status) ≠ ["Pending"] := by
  constructor
  · decide
  · decide

/-- C6 amended: provided at least one stored record is not `Delivered`,
`update_status` fails with `notFound` when the id is absent and with
`invalidChoice` when the code is not one of `"1"`–`"4"`, in both cases
leaving the state unchanged; on success it sets the found record's status
to the mapped status and reports the old status.  When the store is empty
or every record is `Delivered`, the call refuses with `noActive` and
changes nothing, regardless of id and code. -/
theorem update_status_amended (s : SystemState) (pid choice : String) :
    ((∀ d ∈ s.deliveries, d.status = "Delivered") →
      update_status s pid choice = (s, UpdateResult.noActive))
    ∧ ((∃ d ∈ s.deliveries, d.status ≠ "Delivered") →
        (findById s.deliveries pid = none →
          update_status s pid choice = (s, UpdateResult.notFound))
        ∧ (∀ i d, findById s.deliveries pid = some (i, d) →
            (statusOfChoice choice = none →
              update_status s pid choice = (s, UpdateResult.invalidChoice))
            ∧ (∀ ns, statusOfChoice choice = some ns →
                (update_status s pid choice).2 = UpdateResult.updated d.status
                ∧ (update_status s pid choice).1.deliveries.get? i
                    = some ⟨d.id, d.sender, d.receiver, d.destination, ns⟩))) := by
  constructor
  · intro hall
    apply update_status_noActive
    have : s.deliveries.filter (fun d => decide (d.status ≠ "Delivered")) = [] := by
      apply List.filter_eq_nil_iff.mpr
      intro d hd
      simp [hall d hd]
    rw [this]
    rfl
  · rintro ⟨d0, hd0, hst0⟩
    have hne := active_filter_ne_nil hd0 hst0
    refine ⟨fun hf => update_status_notFound hne hf, ?_⟩
    intro i d hf
    refine ⟨fun hc => update_status_invalid hne hf hc, ?_⟩
    intro ns hc
    have hget := (findById_some hf).1
    rw [update_status_found hne hf hc]
    by_cases hcompl : ns = "Delivered"
        ∧ (d.status = "Dispatched" ∨ d.status = "Out for Delivery")
    · rw [if_pos hcompl]
      refine ⟨rfl, ?_⟩
      apply dispatch_next_pending_get_ne_pending
      · exact get?_set_self _ hget
      · rw [hcompl.1]
        simp
    · rw [if_neg hcompl]
      exact ⟨rfl, get?_set_self _ hget⟩

/-- Witness for C6 (amended): a `noActive` refusal on a fully delivered
store, and a successful `Dispatched → Out for Delivery` update. -/
theorem update_status_amended_witness :
    update_status ⟨[⟨"B", "s", "r", "Area C", "Delivered"⟩], [0], []⟩ "B" "1"
      = (⟨[⟨"B", "s", "r", "Area C", "Delivered"⟩], [0], []⟩, UpdateResult.noActive)
    ∧ (update_status ⟨[⟨"A", "s", "r", "Area C", "Dispatched"⟩], [0], []⟩
        "A" "3").2 = UpdateResult.updated "Dispatched"
    ∧ (update_status ⟨[⟨"A", "s", "r", "Area C", "Dispatched"⟩], [0], []⟩
        "A" "3").1.deliveries.get? 0
      = some ⟨"A", "s", "r", "Area C", "Out for Delivery"⟩ :=
  ⟨(update_status_amended ⟨[⟨"B", "s", "r", "Area C", "Delivered"⟩], [0], []⟩
      "B" "1").1 (by decide),
   (((update_status_amended ⟨[⟨"A", "s", "r", "Area C", "Dispatched"⟩], [0], []⟩
        "A" "3").2 (by decide)).2 0 ⟨"A", "s", "r", "Area C", "Dispatched"⟩
      (by decide)).2 "Out for Delivery" rfl |>.1,
   (((update_status_amended ⟨[⟨"A", "s", "r", "Area C", "Dispatched"⟩], [0], []⟩
        "A" "3").2 (by decide)).2 0 ⟨"A", "s", "r", "Area C", "Dispatched"⟩
      (by decide)).2 "Out for Delivery" rfl |>.2⟩

/-- C5: `dispatch_next_pending` never touches the queue, the completion
log or the store's length; when no queued record is `Pending` it returns
`none` and changes nothing; otherwise it flips exactly the first `Pending`
record in front-to-back queue order to `Dispatched`, returns its position,
and leaves every other record unchanged.  Moreover a completion transition
in `update_status` (into `Delivered` from `Dispatched` or
`Out for Delivery`) is followed by exactly one `dispatch_next_pending`
call on the intermediate state, so at most one pending record is
auto-dispatched per completion, chosen by enqueue order. -/
theorem dispatch_next_pending_spec (s : SystemState) :
    ((dispatch_next_pending s).1.queue = s.queue
      ∧ (dispatch_next_pending s).1.completed = s.completed
      ∧ (dispatch_next_pending s).1.deliveries.length = s.deliveries.length)
    ∧ ((∀ i ∈ s.queue, pendingAt s.deliveries i = false) →
        dispatch_next_pending s = (s, none))
    ∧ (∀ i0, s.queue.find? (pendingAt s.deliveries) = some i0 →
        (dispatch_next_pending s).2 = some i0
        ∧ ∃ d, s.deliveries.get? i0 = some d ∧ d.status = "Pending"
            ∧ (dispatch_next_pending s).1.deliveries
                = s.deliveries.set i0
                    ⟨d.id, d.sender, d.receiver, d.destination, "Dispatched"⟩
            ∧ ∀ j, j ≠ i0 →
                (dispatch_next_pending s).1.deliveries.get? j
                  = s.deliveries.get? j)
    ∧ (∀ pid choice i d, findById s.deliveries pid = some (i, d) →
        statusOfChoice choice = some "Delivered" →
        (d.status = "Dispatched" ∨ d.status = "Out for Delivery") →
        update_status s pid choice
          = ((dispatch_next_pending
              ⟨s.deliveries.set i
                  ⟨d.id, d.sender, d.receiver, d.destination, "Delivered"⟩,
                s.queue, s.completed ++ [mkCompletion d]⟩).1,
             UpdateResult.updated d.status)) := by
  refine ⟨⟨(dispatch_next_pending_completed s).2,
      (dispatch_next_pending_completed s).1, ?_⟩, ?_, ?_, ?_⟩
  · unfold dispatch_next_pending
    rcases h : s.queue.find? (pendingAt s.deliveries) with _ | i0
    · rfl
    · simp [setStatusAt_length]
  · intro h
    unfold dispatch_next_pending
    have hnone : s.queue.find? (pendingAt s.deliveries) = none :=
      List.find?_eq_none.mpr (fun i hi => by simp [h i hi])
    rw [hnone]
  · intro i0 hfind
    have hp := List.find?_some hfind
    unfold pendingAt at hp
    rcases hget : s.deliveries.get? i0 with _ | d
    · rw [hget] at hp
      cases hp
    · rw [hget] at hp
      have hpend : d.status = "Pending" := by simpa using hp
      have hset : setStatusAt s.deliveries i0 "Dispatched"
          = s.deliveries.set i0
              ⟨d.id, d.sender, d.receiver, d.destination, "Dispatched"⟩ := by
        unfold setStatusAt
        rw [hget]
      have hd : dispatch_next_pending s
          = (⟨s.deliveries.set i0
                ⟨d.id, d.sender, d.receiver, d.destination, "Dispatched"⟩,
              s.queue, s.completed⟩, some i0) := by
        unfold dispatch_next_pending
        simp only [hfind]
        rw [hset]
      refine ⟨by rw [hd], d, rfl, hpend, by rw [hd], ?_⟩
      intro j hj
      rw [hd]
      exact List.get?_set_ne _ _ (fun hEq => hj hEq.symm)
  · intro pid choice i d hf hc hact
    have hget := (findById_some hf).1
    have hdmem : d ∈ s.deliveries := List.get?_mem hget
    have hst : d.status ≠ "Delivered" := by
      rcases hact with h | h <;> simp [h]
    have hne := active_filter_ne_nil hdmem hst
    rw [update_status_found hne hf hc, if_pos ⟨rfl, hact⟩]

/-- Witness for C5: in a queue with a dispatched record followed by two
pending ones, position 1 (the first pending record in enqueue order) is
the one auto-dispatched; with no pending record nothing changes; and
completing `"P1"` factors through exactly one dispatch call on the
intermediate state. -/
theorem dispatch_next_pending_spec_witness :
    dispatch_next_pending ⟨[⟨"Q", "a", "b", "Area D", "Dispatched"⟩], [0], []⟩
      = (⟨[⟨"Q", "a", "b", "Area D", "Dispatched"⟩], [0], []⟩, none)
    ∧ (dispatch_next_pending
        ⟨[⟨"P1", "a", "b", "Area D", "Dispatched"⟩,
          ⟨"P2", "c", "d", "Area C", "Pending"⟩,
          ⟨"P3", "e", "f", "Area F", "Pending"⟩], [0, 1, 2], []⟩).2 = some 1
    ∧ update_status
        ⟨[⟨"P1", "a", "b", "Area D", "Dispatched"⟩,
          ⟨"P2", "c", "d", "Area C", "Pending"⟩,
          ⟨"P3", "e", "f", "Area F", "Pending"⟩], [0, 1, 2], []⟩ "P1" "4"
      = ((dispatch_next_pending
          ⟨([⟨"P1", "a", "b", "Area D", "Dispatched"⟩,
              ⟨"P2", "c", "d", "Area C", "Pending"⟩,
              ⟨"P3", "e", "f", "Area F", "Pending"⟩] :
                List DeliveryRec).set 0
              ⟨"P1", "a", "b", "Area D", "Delivered"⟩,
            [0, 1, 2],
            [] ++ [mkCompletion ⟨"P1", "a", "b", "Area D", "Dispatched"⟩]⟩).1,
         UpdateResult.updated "Dispatched") :=
  ⟨(dispatch_next_pending_spec
      ⟨[⟨"Q", "a", "b", "Area D", "Dispatched"⟩], [0], []⟩).2.1 (by decide),
   ((dispatch_next_pending_spec
      ⟨[⟨"P1", "a", "b", "Area D", "Dispatched"⟩,
        ⟨"P2", "c", "d", "Area C", "Pending"⟩,
        ⟨"P3", "e", "f", "Area F", "Pending"⟩], [0, 1, 2], []⟩).2.2.1 1
     (by decide)).1,
   (dispatch_next_pending_spec
      ⟨[⟨"P1", "a", "b", "Area D", "Dispatched"⟩,
        ⟨"P2", "c", "d", "Area C", "Pending"⟩,
        ⟨"P3", "e", "f", "Area F", "Pending"⟩], [0, 1, 2], []⟩).2.2.2 "P1" "4" 0
     ⟨"P1", "a", "b", "Area D", "Dispatched"⟩ (by decide) rfl (by decide)⟩

/-- C8: on any list in which every record carries a value for the sort
key, `quick_sort` is a permutation, is stable (every equal-key class keeps
its input order: filtering the output by any key value gives exactly the
input filtered by that value), sorts ascending by the key, returns an
already-sorted list unchanged, and is idempotent. -/
theorem quick_sort_stable_idempotent (key : α → Option String) (l : List α)
    (h : ∀ x ∈ l, (key x).isSome) :
    (quick_sort key l).Perm l
    ∧ (∀ v : String, (quick_sort key l).filter (fun x => kEq (key x) v)
        = l.filter (fun x => kEq (key x) v))
    ∧ sortedByKey key (quick_sort key l)
    ∧ (sortedByKey key l → quick_sort key l = l)
    ∧ quick_sort key (quick_sort key l) = quick_sort key l := by
  have hperm := quick_sort_perm key l.length l le_rfl h
  have hsome2 : ∀ x ∈ quick_sort key l, (key x).isSome :=
    fun x hx => h x (hperm.mem_iff.mp hx)
  refine ⟨hperm, fun v => quick_sort_filter_eq key v l.length l le_rfl,
    quick_sort_sorted key l.length l le_rfl h,
    fun hs => quick_sort_sorted_eq key l.length l le_rfl h hs, ?_⟩
  exact quick_sort_sorted_eq key (quick_sort key l).length _ le_rfl hsome2
    (quick_sort_sorted key l.length l le_rfl h)

/-- Witness for C8: the sort-by-destination of three concrete records. -/
theorem quick_sort_stable_idempotent_witness :
    (quick_sort (fun d : DeliveryRec => some d.destination)
        [⟨"P1", "a", "b", "Area D", "Dispatched"⟩,
         ⟨"P2", "c", "d", "Area C", "Pending"⟩,
         ⟨"P3", "e", "f", "Area D", "Pending"⟩]).Perm
      [⟨"P1", "a", "b", "Area D", "Dispatched"⟩,
       ⟨"P2", "c", "d", "Area C", "Pending"⟩,
       ⟨"P3", "e", "f", "Area D", "Pending"⟩]
    ∧ (∀ v : String, (quick_sort (fun d : DeliveryRec => some d.destination)
          [⟨"P1", "a", "b", "Area D", "Dispatched"⟩,
           ⟨"P2", "c", "d", "Area C", "Pending"⟩,
           ⟨"P3", "e", "f", "Area D", "Pending"⟩]).filter
            (fun x => kEq (some x.destination) v)
        = [⟨"P1", "a", "b", "Area D", "Dispatched"⟩,
           ⟨"P2", "c", "d", "Area C", "Pending"⟩,
           ⟨"P3", "e", "f", "Area D", "Pending"⟩].filter
            (fun x => kEq (some x.destination) v))
    ∧ sortedByKey (fun d : DeliveryRec => some d.destination)
        (quick_sort (fun d : DeliveryRec => some d.destination)
          [⟨"P1", "a", "b", "Area D", "Dispatched"⟩,
           ⟨"P2", "c", "d", "Area C", "Pending"⟩,
           ⟨"P3", "e", "f", "Area D", "Pending"⟩])
    ∧ (sortedByKey (fun d : DeliveryRec => some d.destination)
          [⟨"P1", "a", "b", "Area D", "Dispatched"⟩,
           ⟨"P2", "c", "d", "Area C", "Pending"⟩,
           ⟨"P3", "e", "f", "Area D", "Pending"⟩] →
        quick_sort (fun d : DeliveryRec => some d.destination)
          [⟨"P1", "a", "b", "Area D", "Dispatched"⟩,
           ⟨"P2", "c", "d", "Area C", "Pending"⟩,
           ⟨"P3", "e", "f", "Area D", "Pending"⟩]
        = [⟨"P1", "a", "b", "Area D", "Dispatched"⟩,
           ⟨"P2", "c", "d", "Area C", "Pending"⟩,
           ⟨"P3", "e", "f", "Area D", "Pending"⟩])
    ∧ quick_sort (fun d : DeliveryRec => some d.destination)
        (quick_sort (fun d : DeliveryRec => some d.destination)
          [⟨"P1", "a", "b", "Area D", "Dispatched"⟩,
           ⟨"P2", "c", "d", "Area C", "Pending"⟩,
           ⟨"P3", "e", "f", "Area D", "Pending"⟩])
      = quick_sort (fun d : DeliveryRec => some d.destination)
          [⟨"P1", "a", "b", "Area D", "Dispatched"⟩,
           ⟨"P2", "c", "d", "Area C", "Pending"⟩,
           ⟨"P3", "e", "f", "Area D", "Pending"⟩] :=
  quick_sort_stable_idempotent (fun d : DeliveryRec => some d.destination)
    [⟨"P1", "a", "b", "Area D", "Dispatched"⟩,
     ⟨"P2", "c", "d", "Area C", "Pending"⟩,
     ⟨"P3", "e", "f", "Area D", "Pending"⟩] (by decide)

/-- C10: whenever the first element of a non-empty input has no value for
the requested sort key, `quick_sort` returns the input unchanged without
partitioning or recursing — so the output need not be sorted, as the
concrete dict-shaped record list shows (the head lacks `"destination"`,
and the output keeps `"B"` before `"A"`). -/
theorem quick_sort_missing_pivot_key :
    (∀ {β : Type} (key : β → Option String) (p : β) (t : List β),
        key p = none → quick_sort key (p :: t) = p :: t)
    ∧ quick_sort (fun r : List (String × String) => r.lookup "destination")
        [[("id", "1")], [("id", "2"), ("destination", "B")],
         [("id", "3"), ("destination", "A")]]
      = [[("id", "1")], [("id", "2"), ("destination", "B")],
         [("id", "3"), ("destination", "A")]]
    ∧ ¬ sortedByKey (fun r : List (String × String) => r.lookup "destination")
        [[("id", "1")], [("id", "2"), ("destination", "B")],
         [("id", "3"), ("destination", "A")]] := by
  have hmain : ∀ {β : Type} (key : β → Option String) (p : β) (t : List β),
      key p = none → quick_sort key (p :: t) = p :: t :=
    fun key p t hk => quick_sort_pivot_none key p t hk
  refine ⟨hmain, hmain _ _ _ (by decide), ?_⟩
  intro hs
  unfold sortedByKey at hs
  rcases hs with _ | ⟨_, hs2⟩
  rcases hs2 with _ | ⟨h2, _⟩
  have hbad := h2 _ (List.mem_singleton.mpr rfl)
  have hbad2 : kle (some "B") (some "A") = true := hbad
  have hle : ¬ (("B" : String) ≤ "A") :=
    not_le_of_lt (String.lt_iff_toList_lt.mpr (by decide))
  have hval : kle (some "B") (some "A") = false := by
    simp [kle, hle]
  rw [hval] at hbad2
  exact Bool.false_ne_true hbad2

/-- Witness for C10: a two-element list whose head lacks the key is
returned unchanged. -/
theorem quick_sort_missing_pivot_key_witness :
    quick_sort (fun r : List (String × String) => r.lookup "destination")
      [[("id", "7")], [("id", "8"), ("destination", "Z")]]
      = [[("id", "7")], [("id", "8"), ("destination", "Z")]] :=
  quick_sort_missing_pivot_key.1 _ _ _ (by decide)

/-- Witness for C4: registering `"P2"` into the empty state succeeds and
leaves exactly one active record. -/
theorem register_delivery_single_active_witness :
    (register_delivery ⟨[], [], []⟩ "P2" "Cy" "Di" "Area C").2 = RegisterResult.ok
      ∧ ((register_delivery ⟨[], [], []⟩ "P2" "Cy" "Di" "Area C").1.deliveries.filter
          (fun d => decide (d.status = "Dispatched")
            || decide (d.status = "Out for Delivery"))).length ≤ 1 :=
  ⟨((register_delivery_single_active ⟨[], [], []⟩ "P2" "Cy" "Di" "Area C").1
      (by decide)).2.2,
   (register_delivery_single_active ⟨[], [], []⟩ "P2" "Cy" "Di" "Area C").2
     (by decide)⟩

/-- C9: `group_sort` partitions the records into groups keyed by the
primary key, concatenates the groups in the canonical status-priority
order `Pending < Dispatched < Out for Delivery < Delivered` (ranks 0-3)
with any non-canonical group key ranked 99 and therefore placed after all
canonical groups, and passes each group through `quick_sort` on the
secondary key: the output is the concatenation, over the distinct primary
keys arranged in rank order, of the quick-sorted groups. -/
theorem group_sort_characterization (arr : List α) (pk sk : α → Option String) :
    (statusRank (some "Pending") = 0 ∧ statusRank (some "Dispatched") = 1
      ∧ statusRank (some "Out for Delivery") = 2
      ∧ statusRank (some "Delivered") = 3)
    ∧ (∀ k, k ∉ [some "Pending", some "Dispatched", some "Out for Delivery",
        some "Delivered"] → statusRank k = 99)
    ∧ ∃ ks : List (Option String),
        ks.Pairwise rankLe
        ∧ ks.Nodup
        ∧ (∀ k, k ∈ ks ↔ ∃ x ∈ arr, pk x = k)
        ∧ group_sort arr pk sk
            = (ks.map (fun k =>
                quick_sort sk (arr.filter (fun x => pk x == k)))).flatten := by
  refine ⟨⟨rfl, rfl, rfl, rfl⟩, ?_, ?_⟩
  · intro k hk
    simp only [List.mem_cons, List.mem_singleton, not_or] at hk
    obtain ⟨h1, h2, h3, h4⟩ := hk
    simp [statusRank, h1, h2, h3, h4]
  · refine ⟨List.insertionSort rankLe ((buildGroups pk arr).map Prod.fst),
      ?_, ?_, ?_, ?_⟩
    · exact List.sorted_insertionSort rankLe _
    · exact ((List.perm_insertionSort rankLe _).nodup_iff).mpr
        ((keys_foldl_props pk arr []).1 (by simp))
    · intro k
      rw [(List.perm_insertionSort rankLe _).mem_iff]
      have h := (keys_foldl_props pk arr []).2 k
      simpa using h
    · unfold group_sort
      rw [foldl_append_join, List.nil_append]
      congr 1
      apply List.map_congr_left
      intro k _
      rw [lookupGroup_buildGroups]

/-- Witness for C9: a key that is none of the four canonical statuses gets
rank 99 (sorting after every canonical group). -/
theorem group_sort_characterization_witness :
    statusRank (some "Unknown Region") = 99 :=
  (group_sort_characterization ([] : List DeliveryRec)
    (fun d => some d.status) (fun d => some d.destination)).2.1
    (some "Unknown Region") (by decide)

end RouteLink
